import Mathlib

/-!
Verification of the mfilter time/frequency series core
(src/mfilter/types/timeseries.py and src/mfilter/types/frequencyseries.py).

Real scalars are embedded as rationals, numpy arrays as lists of rationals.
Randomly drawn perturbation parameters (jitter epsilon, offsets) are passed
explicitly as arguments, which matches the keyword-argument defaulting in the
source where a caller may supply every parameter.
-/

namespace MFilter

/-- Minimum of a list, mirroring numpy ndarray.min on a nonempty array.
The empty case returns 0 as a sentinel; every theorem below that relies on
the minimum works with nonempty lists. -/
def npMin : List ℚ → ℚ
  | [] => 0
  | [x] => x
  | x :: y :: xs => min x (npMin (y :: xs))

/-- Maximum of a list, mirroring numpy ndarray.max on a nonempty array. -/
def npMax : List ℚ → ℚ
  | [] => 0
  | [x] => x
  | x :: y :: xs => max x (npMax (y :: xs))

/-!
Irregular time-grid generator, from src/mfilter/types/timeseries.py,
class IrregularTimeSamples (lines 51 to 132).  The slight recipe with
clear=True resets the working grid to arange(n) * dt, adds the per-sample
jitter epsilon, then normalizes the minimum toward the requested offset.
-/

/-- Embedding of np.arange(n) * dt, the cleared working grid of
IrregularTimeSamples.compute (timeseries.py line 69). -/
def regularGrid (n : ℕ) (dt : ℚ) : List ℚ :=
  (List.range n).map (fun (i : ℕ) => (i : ℚ) * dt)

/-- Embedding of IrregularTimeSamples._add_irregularities
(timeseries.py lines 99 to 101): elementwise t[i] += epsilon[i]. -/
def addIrregularities (t eps : List ℚ) : List ℚ :=
  t.zipWith (· + ·) eps

/-- Embedding of IrregularTimeSamples._normalize (timeseries.py
lines 103 to 105): if t.min() < offset then every entry is shifted by
offset - abs(t.min()).  The abs call is kept exactly as in the source. -/
def normalizeGrid (t : List ℚ) (offset : ℚ) : List ℚ :=
  if npMin t < offset then t.map (fun x => x + (offset - |npMin t|)) else t

/-- Embedding of IrregularTimeSamples._base (timeseries.py lines 107
to 109): add the jitter, then normalize to the offset. -/
def baseRecipe (t eps : List ℚ) (offset : ℚ) : List ℚ :=
  normalizeGrid (addIrregularities t eps) offset

/-- Embedding of IrregularTimeSamples.compute with struct slight and
clear=True (timeseries.py lines 66 to 83): the working grid is reset to
arange(n) * dt and the base recipe is applied with the supplied jitter
vector and offset. -/
def computeSlight (n : ℕ) (dt : ℚ) (eps : List ℚ) (offset : ℚ) : List ℚ :=
  baseRecipe (regularGrid n dt) eps offset

/-!
Frequency grid, from src/mfilter/types/frequencyseries.py,
class FrequencySamples.
-/

/-- Python round, as applied by int(round(x)) in
FrequencySamples.__init__ (frequencyseries.py lines 56 and 59): nearest
integer, ties resolved to the even neighbour. -/
def pyround (x : ℚ) : ℤ :=
  if x - ⌊x⌋ < 1 / 2 then ⌊x⌋
  else if x - ⌊x⌋ > 1 / 2 then ⌊x⌋ + 1
  else if Even ⌊x⌋ then ⌊x⌋ else ⌊x⌋ + 1

/-- Duration of a time grid, input_time.max() - input_time.min()
(frequencyseries.py line 42). -/
def fsDuration (t : List ℚ) : ℚ :=
  npMax t - npMin t

/-- Raw bin spacing df = 1 / duration / samples_per_peak
(frequencyseries.py line 44). -/
def fsDf (t : List ℚ) (spp : ℕ) : ℚ :=
  1 / fsDuration t / (spp : ℚ)

/-- Average Nyquist estimate 0.5 * len(input_time) / duration
(frequencyseries.py line 52). -/
def avgNyquist (t : List ℚ) : ℚ :=
  1 / 2 * (t.length : ℚ) / fsDuration t

/-- Sample count 1 + int(round((maximum_frequency - minimum_frequency) / df))
(frequencyseries.py lines 55, 56, 58, 59).  A negative value collapses to an
empty grid, as np.arange would produce. -/
def fsNSamples (minF maxF df : ℚ) : ℕ :=
  (1 + pyround ((maxF - minF) / df)).toNat

/-- Grid construction minimum_frequency + df * np.arange(n_samples)
(frequencyseries.py line 61). -/
def fsGrid (minF df : ℚ) (n : ℕ) : List ℚ :=
  (List.range n).map (fun (i : ℕ) => minF + df * (i : ℚ))

/-- Result of the FrequencySamples sizing algorithm: the grid, the raw
spacing df and the oversampling factor samples_per_peak. -/
structure FreqGridResult where
  grid : List ℚ
  df : ℚ
  spp : ℕ

/-- Embedding of FrequencySamples.__init__ on the construction path from a
source time grid, initial_array=None (frequencyseries.py lines 35 to 61 and
73 to 75).  Optional arguments are Option values; samples_per_peak defaults
to 5 and minimum_frequency to 0.  When maximum_frequency is given the sample
count always comes from the rounding formula; when it is absent and
n_samples is also absent, the Nyquist estimate scaled by nyquist_factor is
used as maximum frequency; when only n_samples is given the grid uses it
directly. -/
def freqSamplesFromTime (t : List ℚ) (minFreq? maxFreq? : Option ℚ)
    (spp? : Option ℕ) (nyqFactor : ℚ) (nSamples? : Option ℕ) :
    FreqGridResult :=
  let spp := spp?.getD 5
  let df := fsDf t spp
  let minF := minFreq?.getD 0
  match maxFreq? with
  | some maxF => ⟨fsGrid minF df (fsNSamples minF maxF df), df, spp⟩
  | none =>
    match nSamples? with
    | none =>
      let maxF := nyqFactor * avgNyquist t
      ⟨fsGrid minF df (fsNSamples minF maxF df), df, spp⟩
    | some n => ⟨fsGrid minF df n, df, spp⟩

/-- Maximum frequency actually used by the sizing algorithm when n_samples
is not supplied: the explicit one, or the scaled Nyquist estimate
(frequencyseries.py lines 49 to 59). -/
def fsUsedMax (t : List ℚ) (maxFreq? : Option ℚ) (nyqFactor : ℚ) : ℚ :=
  maxFreq?.getD (nyqFactor * avgNyquist t)

/-- Embedding of FrequencySamples.check_nsst (frequencyseries.py lines 77
to 84): true when 2 * B is strictly below the maximum grid frequency. -/
def check_nsst (grid : List ℚ) (B : ℚ) : Bool :=
  decide (2 * B < npMax grid)

/-- Embedding of FrequencySamples.zero_idx (frequencyseries.py lines 110
to 115): the index of the first exact-zero entry, none when absent.  It
mirrors np.where(data == 0)[0][0]. -/
def zeroIdx : List ℚ → Option ℕ
  | [] => none
  | x :: xs => if x = 0 then some 0 else (zeroIdx xs).map (· + 1)

/-- Embedding of FrequencySamples.split_by_zero (frequencyseries.py lines
86 to 97): the sub-sequences strictly below and strictly above the first
zero entry, or none when the grid has no zero. -/
def split_by_zero (grid : List ℚ) : Option (List ℚ × List ℚ) :=
  match zeroIdx grid with
  | none => none
  | some idx => some (grid.take idx, grid.drop (idx + 1))

/-- Embedding of the periodogram assembly inside
FrequencySamples.lomb_scargle (frequencyseries.py lines 148 to 162), prior
to the division by the taper power W.  The external periodogram kernel
lomb.power computes one power value per requested frequency and is embedded
as the per-frequency function kernel.  With no zero entry the kernel is
applied to the absolute value of every grid frequency.  With a zero at
index 0 the remaining bins receive kernel values and bin 0 the minimum of
those.  With a zero at a positive index z the negative sub-sequence is
reversed and taken as magnitudes, the kernel results are written back
reversed into the first z bins, bin z receives the minimum of those bins,
and the positive sub-sequence fills the rest. -/
def lombScarglePsd (kernel : ℚ → ℚ) (grid : List ℚ) : List ℚ :=
  match zeroIdx grid with
  | none => grid.map (fun f => kernel |f|)
  | some z =>
    if z = 0 then
      let rest := (grid.drop 1).map kernel
      npMin rest :: rest
    else
      let p := (split_by_zero grid).getD ([], [])
      let right := p.2.map kernel
      let left := p.1.reverse.map (fun f => kernel |f|)
      left.reverse ++ npMin left.reverse :: right

/-- Frequencies at which lomb_scargle invokes the external periodogram
kernel (frequencyseries.py lines 148 to 162): the magnitudes of the whole
grid when no zero is present; otherwise the entries after the zero plus the
magnitudes of the reversed entries before it. -/
def lombScargleKernelArgs (grid : List ℚ) : List ℚ :=
  match zeroIdx grid with
  | none => grid.map (fun f => |f|)
  | some z =>
    if z = 0 then grid.drop 1
    else grid.drop (z + 1) ++ (grid.take z).reverse.map (fun f => |f|)

/-- Record of the data a FrequencySeries equality check reads: the sample
payload, the epoch and the basic frequency spacing basic_df
(frequencyseries.py lines 320 to 325). -/
structure FreqSeriesData where
  samples : List ℚ
  epoch : ℚ
  basicDf : ℚ

/-- Modelled from the spec: the Numeric Container base class
(mfilter.types.arrays.Array) is not under src/; per the spec its equality
compares the sample payloads of the two containers elementwise. -/
def arrayEq (a b : List ℚ) : Bool :=
  decide (a = b)

/-- Embedding of FrequencySeries.__eq__ (frequencyseries.py lines 320 to
325): when the base-class sample comparison succeeds the result is the
conjunction of epoch equality and basic_df equality, otherwise False. -/
def fsEq (a b : FreqSeriesData) : Bool :=
  if arrayEq a.samples b.samples then
    decide (a.epoch = b.epoch) && decide (a.basicDf = b.basicDf)
  else
    false

/-!
Non-uniform transform refinement loop, from TimeSeries.ts_nfft
(src/mfilter/types/timeseries.py lines 223 to 246).  The external solver is
embedded abstractly by its state type S, a one-step refinement function
(solv.loop_one_step) and the residual read after a step (max(solv.r_iter)).
-/

/-- Embedding of the while loop of TimeSeries.ts_nfft (timeseries.py lines
233 to 241).  The source counts iterations in count, starting at 0, and
breaks either when the residual after a step drops below tol or when
count reaches 500; here fuel equals 501 - count, so the cap break
count == 500 is the branch where the remaining fuel inside the successor
pattern is 0.  The pair returned is the state after the last executed step
together with the number of loop_one_step calls performed. -/
def nfftGo {S : Type} (step : S → S) (res : S → ℚ) (tol : ℚ) :
    ℕ → S → ℕ → S × ℕ
  | 0, s, steps => (s, steps)
  | fuel + 1, s, steps =>
    let s1 := step s
    if res s1 < tol then (s1, steps + 1)
    else if fuel = 0 then (s1, steps + 1)
    else nfftGo step res tol fuel s1 (steps + 1)

/-- The refinement loop of ts_nfft as entered by the source: counter at 0,
which corresponds to fuel 501. -/
def ts_nfft_loop {S : Type} (step : S → S) (res : S → ℚ) (tol : ℚ)
    (s0 : S) : S × ℕ :=
  nfftGo step res tol 501 s0 0

/-!
Match, from FrequencySeries.match (src/mfilter/types/frequencyseries.py
lines 374 to 389), together with the conversion chain it triggers on a
TimeSeries operand (timeseries.py lines 208 to 218 and 276 to 305).
-/

/-- Failure taxonomy of the match call chain: the duration-tolerance
rejection, the complex-input rejection of to_frequencyseries, the
missing-regressor rejection of TimeSeries.regression, and the two length
assertions of match. -/
inductive MatchErr where
  | durationTol
  | complexInput
  | missingRegressor
  | lenMismatch
  | psdLenMismatch
deriving DecidableEq

/-- The operand handed to FrequencySeries.match: a TimeSeries carrying its
duration and the kind of its payload, or another FrequencySeries carrying
its length. -/
inductive MatchOperand where
  | ts (duration : ℚ) (isComplex : Bool)
  | fs (len : ℕ)

/-- Embedding of TimeSeries.to_frequencyseries invoked with no keyword
arguments, exactly as FrequencySeries.match invokes it (frequencyseries.py
line 382, timeseries.py lines 276 to 305): complex input is rejected with a
type error, and otherwise the default regression method calls
TimeSeries.regression with regressor None, which unconditionally raises the
missing-regressor invalid-argument error (timeseries.py lines 211 to 212).
The conversion therefore never returns normally. -/
def to_frequencyseries_default (isComplex : Bool) : Except MatchErr Unit :=
  if isComplex then Except.error MatchErr.complexInput
  else Except.error MatchErr.missingRegressor

/-- Embedding of FrequencySeries.match (frequencyseries.py lines 374 to
389).  For a TimeSeries operand the relative duration deviation is checked
against tol first, then the operand is converted with
to_frequencyseries_default.  The continuation after a successful conversion
is unreachable because that conversion always fails, so the ok arm below is
never taken on real inputs.  For a FrequencySeries operand the equal-length
assertion and, when a PSD is supplied, the PSD-length assertion run, and a
successful run reaches the external match function, modelled as ok. -/
def fs_match (selfLen : ℕ) (selfDuration : ℚ) (other : MatchOperand)
    (psdLen? : Option ℕ) (tol : ℚ) : Except MatchErr Unit :=
  match other with
  | MatchOperand.ts dur isComplex =>
    if |dur / selfDuration - 1| > tol then Except.error MatchErr.durationTol
    else
      match to_frequencyseries_default isComplex with
      | Except.error e => Except.error e
      | Except.ok _ => Except.ok ()
  | MatchOperand.fs len =>
    if len ≠ selfLen then Except.error MatchErr.lenMismatch
    else
      match psdLen? with
      | some p =>
        if p ≠ selfLen then Except.error MatchErr.psdLenMismatch
        else Except.ok ()
      | none => Except.ok ()

/-!
Segmented Welch-style estimator, from FrequencySamples.lomb_welch
(src/mfilter/types/frequencyseries.py lines 166 to 205).  The spectrum is a
Numeric Container with elementwise addition and scalar division (spec
section 4.1; the Array base class is not under src/), so a single frequency
bin suffices: contrib n stands for the taper-power-normalized periodogram
value, at that bin, of the segment whose slice starts at sample n, and
tailContrib for the value of the forced final segment.
-/

/-- Step of the lomb_welch loop, int(data_per_segment * over)
(frequencyseries.py line 193). -/
def welchStep (d : ℕ) (over : ℚ) : ℕ :=
  (⌊(d : ℚ) * over⌋).toNat

/-- Embedding of the while loop of lomb_welch (frequencyseries.py lines 184
to 194): starting from sample index n it accumulates segment contributions
and counts processed segments while n < len(data) - data_per_segment,
advancing by the step.  The source loop terminates only for a positive
step; the guard 0 < step makes the model total and returns the empty
accumulation otherwise. -/
def welchGo (contrib : ℕ → ℚ) (L d step n : ℕ) : ℚ × ℕ :=
  if h : 0 < step ∧ n < L - d then
    let r := welchGo contrib L d step (n + step)
    (contrib n + r.1, r.2 + 1)
  else (0, 0)
termination_by (L - d) - n
decreasing_by omega

/-- Embedding of FrequencySamples.lomb_welch at one frequency bin
(frequencyseries.py lines 180 to 205): the loop accumulation starting at
n = 0, plus the forced tail-segment contribution, divided by the total
number of processed segments; the pair also returns that count. -/
def lomb_welch (contrib : ℕ → ℚ) (tailContrib : ℚ) (L d : ℕ)
    (over : ℚ) : ℚ × ℕ :=
  let r := welchGo contrib L d (welchStep d over) 0
  ((r.1 + tailContrib) / ((r.2 : ℚ) + 1), r.2 + 1)

/-- First index of a minimal entry, mirroring np.argmin, which returns the
first occurrence of the minimum (used by TimeSeries.get_time_slice,
timeseries.py lines 200 to 201). -/
def npArgmin : List ℚ → ℕ
  | [] => 0
  | [_] => 0
  | x :: y :: xs =>
    if x ≤ npMin (y :: xs) then 0 else npArgmin (y :: xs) + 1

/-- Embedding of TimeSeries.get_time_slice (timeseries.py lines 199 to
202): the start and end indices are the argmin of the absolute deviation of
the time grid from the requested start and end values, and the returned
payload is the half-open index slice of the data. -/
def get_time_slice (times data : List ℚ) (a b : ℚ) : List ℚ :=
  (data.drop (npArgmin (times.map (fun t => |t - a|)))).take
    (npArgmin (times.map (fun t => |t - b|)) -
      npArgmin (times.map (fun t => |t - a|)))

/-- Embedding of the forced final segment of lomb_welch (frequencyseries.py
lines 196 to 197): the time slice between the time values at indices
len(times) - data_per_segment - 1 and len(times) - 1. -/
def welchTailSlice (times data : List ℚ) (d : ℕ) : List ℚ :=
  get_time_slice times data (times.getD (times.length - d - 1) 0)
    (times.getD (times.length - 1) 0)

end MFilter

namespace MFilter

theorem npMin_le_of_mem : ∀ {l : List ℚ} {x : ℚ}, x ∈ l → npMin l ≤ x := by
  intro l
  induction l with
  | nil => intro x hx; cases hx
  | cons a t ih =>
    intro x hx
    cases t with
    | nil =>
      rcases List.mem_singleton.mp hx with rfl
      exact le_refl _
    | cons b u =>
      rcases List.mem_cons.mp hx with rfl | hx
      · exact min_le_left _ _
      · exact le_trans (min_le_right _ _) (ih hx)

theorem npMin_mem : ∀ {l : List ℚ}, l ≠ [] → npMin l ∈ l := by
  intro l
  induction l with
  | nil => intro h; exact absurd rfl h
  | cons a t ih =>
    intro _
    cases t with
    | nil => simp [npMin]
    | cons b u =>
      show min a (npMin (b :: u)) ∈ a :: b :: u
      rcases min_cases a (npMin (b :: u)) with ⟨h, _⟩ | ⟨h, _⟩
      · rw [h]; exact List.mem_cons_self _ _
      · rw [h]; exact List.mem_cons_of_mem _ (ih (by simp))

theorem fsGrid_length (minF df : ℚ) (n : ℕ) :
    (fsGrid minF df n).length = n := by
  rw [fsGrid, List.length_map, List.length_range]

theorem fsGrid_get (minF df : ℚ) (n i : ℕ)
    (h : i < (fsGrid minF df n).length) :
    (fsGrid minF df n).get ⟨i, h⟩ = minF + df * (i : ℚ) := by
  simp only [fsGrid, List.get_eq_getElem, List.getElem_map,
    List.getElem_range]

theorem zeroIdx_decomp :
    ∀ {l : List ℚ} {z : ℕ}, zeroIdx l = some z →
      l = l.take z ++ 0 :: l.drop (z + 1) ∧ (0 : ℚ) ∉ l.take z := by
  intro l
  induction l with
  | nil => intro z h; simp [zeroIdx] at h
  | cons x xs ih =>
    intro z h
    by_cases hx : x = 0
    · simp [zeroIdx, hx] at h
      subst h
      subst hx
      simp
    · rw [zeroIdx, if_neg hx] at h
      obtain ⟨z0, hz0, hzz⟩ := Option.map_eq_some'.mp h
      subst hzz
      obtain ⟨hdec, hmem⟩ := ih hz0
      constructor
      · simp only [List.take_succ_cons, List.drop_succ_cons]
        exact congrArg (x :: ·) hdec
      · simp only [List.take_succ_cons, List.mem_cons]
        rintro (rfl | hc)
        · exact hx rfl
        · exact hmem hc

/-- Claim C1: the slight recipe of the irregular time-grid generator is
claimed to return a grid whose minimum equals the requested offset whenever
the pre-normalization minimum falls below the offset.  The code instead
shifts by offset - abs(min), which moves the grid DOWN when the minimum is
negative: with n = 1, dt = 1, jitter epsilon = [-1] and the default
offset 0, the pre-normalization minimum is -1 < 0, yet the returned grid is
[-2] with minimum -2, not 0.  This evaluates the embedded code at that
failing input. -/
theorem computeSlight_normalize_bug :
    npMin (addIrregularities (regularGrid 1 1) [-1]) = -1 ∧
    npMin (addIrregularities (regularGrid 1 1) [-1]) < 0 ∧
    computeSlight 1 1 [-1] 0 = [-2] ∧
    npMin (computeSlight 1 1 [-1] 0) ≠ 0 := by
  refine ⟨?_, ?_, ?_, ?_⟩ <;>
    norm_num [computeSlight, baseRecipe, addIrregularities, regularGrid,
      normalizeGrid, npMin, List.range_succ]

/-- Claim C9: check_nsst B is true exactly when 2 * B is strictly below the
maximum grid frequency, and at the boundary 2 * B = max(grid) it returns
false. -/
theorem check_nsst_iff (grid : List ℚ) (B : ℚ) :
    (check_nsst grid B = true ↔ 2 * B < npMax grid) ∧
    (2 * B = npMax grid → check_nsst grid B = false) := by
  constructor
  · simp [check_nsst]
  · intro h
    simp [check_nsst, h]

/-- Witness for claim C9 at the concrete grid with entries 1 and 2 and
bandwidth B = 1, which sits exactly on the boundary 2 * B = max(grid). -/
theorem check_nsst_iff_witness : check_nsst [1, 2] 1 = false :=
  (check_nsst_iff [1, 2] 1).2 (by norm_num [npMax])

/-- Claim C8: equality of two frequency series holds exactly when the
samples, the epoch and basic_df all agree; in particular identical samples
and epoch with different basic_df compare unequal. -/
theorem fsEq_iff (a b : FreqSeriesData) :
    (fsEq a b = true ↔
      a.samples = b.samples ∧ a.epoch = b.epoch ∧ a.basicDf = b.basicDf) ∧
    (a.samples = b.samples → a.epoch = b.epoch → a.basicDf ≠ b.basicDf →
      fsEq a b = false) := by
  constructor
  · constructor
    · intro h
      by_cases hs : a.samples = b.samples
      · refine ⟨hs, ?_, ?_⟩ <;>
          · simp only [fsEq, arrayEq, hs, decide_eq_true_eq, if_pos,
              Bool.and_eq_true] at h
            tauto
      · exfalso
        simp [fsEq, arrayEq, hs] at h
    · rintro ⟨hs, he, hd⟩
      simp [fsEq, arrayEq, hs, he, hd]
  · intro hs he hd
    simp [fsEq, arrayEq, hs, he, hd]

/-- Witness for claim C8 at concrete series: identical samples and epoch but
basic_df 1 versus 2 compare unequal. -/
theorem fsEq_iff_witness :
    fsEq ⟨[3], 0, 1⟩ ⟨[3], 0, 2⟩ = false :=
  (fsEq_iff ⟨[3], 0, 1⟩ ⟨[3], 0, 2⟩).2 rfl rfl (by norm_num)

/-- Claim C4: for a frequency grid built by the sizing algorithm from a
source time grid, with an explicit maximum frequency or with the maximum
derived from the scaled Nyquist estimate when both it and n_samples are
absent: samples_per_peak defaults to 5, df equals 1 / duration /
samples_per_peak, the minimum frequency defaults to 0, the grid length is
1 + round of the frequency span over df, every entry i equals the minimum
frequency plus df times i, and the first entry is the minimum frequency. -/
theorem freqSamples_sizing (t : List ℚ) (minFreq? maxFreq? : Option ℚ)
    (spp? : Option ℕ) (nyq : ℚ) (r : FreqGridResult)
    (hr : r = freqSamplesFromTime t minFreq? maxFreq? spp? nyq none) :
    r.spp = spp?.getD 5 ∧
    r.df = 1 / fsDuration t / (spp?.getD 5 : ℚ) ∧
    r.grid.length =
      (1 + pyround ((fsUsedMax t maxFreq? nyq - minFreq?.getD 0) /
        r.df)).toNat ∧
    (∀ i (hi : i < r.grid.length),
      r.grid.get ⟨i, hi⟩ = minFreq?.getD 0 + r.df * (i : ℚ)) ∧
    (∀ (h0 : 0 < r.grid.length),
      r.grid.get ⟨0, h0⟩ = minFreq?.getD 0) := by
  subst hr
  cases maxFreq? with
  | some M =>
    refine ⟨rfl, rfl, fsGrid_length _ _ _,
      fun i hi => fsGrid_get _ _ _ _ hi, fun h0 => ?_⟩
    simpa using fsGrid_get _ _ _ _ h0
  | none =>
    refine ⟨rfl, rfl, fsGrid_length _ _ _,
      fun i hi => fsGrid_get _ _ _ _ hi, fun h0 => ?_⟩
    simpa using fsGrid_get _ _ _ _ h0

/-- Witness for claim C4 at the concrete time grid with entries 0 and 1,
default minimum frequency and samples_per_peak, explicit maximum
frequency 2: df is one fifth and the grid holds 11 samples. -/
theorem freqSamples_sizing_witness :
    (freqSamplesFromTime [0, 1] none (some 2) none 2 none).spp = 5 ∧
    (freqSamplesFromTime [0, 1] none (some 2) none 2 none).df = 1 / 5 ∧
    (freqSamplesFromTime [0, 1] none (some 2) none 2 none).grid.length =
      11 := by
  have h := freqSamples_sizing [0, 1] none (some 2) none 2 _ rfl
  refine ⟨h.1, ?_, ?_⟩
  · rw [h.2.1]
    norm_num [fsDuration, npMax, npMin]
  · rw [h.2.2.1, h.2.1]
    norm_num [fsDuration, npMax, npMin, fsUsedMax, pyround]
    decide

/-- Claim C2: for a grid whose unique exact-zero entry sits at index z, the
lomb_scargle assembly never hands the frequency 0 to the periodogram
kernel; for positive z the first z bins hold the kernel values of the
magnitudes of the negative sub-sequence, bin z holds the minimum of those,
and the bins after z hold the kernel values of the positive sub-sequence;
for z = 0 the remaining bins hold the kernel values of the rest of the grid
and bin 0 their minimum. -/
theorem lomb_scargle_zero_handling (kernel : ℚ → ℚ) (grid : List ℚ) (z : ℕ)
    (hz : zeroIdx grid = some z) (hcount : grid.count 0 = 1) :
    (0 : ℚ) ∉ lombScargleKernelArgs grid ∧
    (z = 0 → lombScarglePsd kernel grid =
      npMin ((grid.drop 1).map kernel) :: (grid.drop 1).map kernel) ∧
    (0 < z → lombScarglePsd kernel grid =
      (grid.take z).map (fun f => kernel |f|) ++
        npMin ((grid.take z).map (fun f => kernel |f|)) ::
          (grid.drop (z + 1)).map kernel) := by
  obtain ⟨hdec, htake⟩ := zeroIdx_decomp hz
  have hdrop : (0 : ℚ) ∉ grid.drop (z + 1) := by
    have hc : grid.count 0 =
        (grid.take z).count 0 + ((grid.drop (z + 1)).count 0 + 1) := by
      conv_lhs => rw [hdec]
      simp [List.count_append, List.count_cons]
    rw [hcount] at hc
    have h0 : (grid.drop (z + 1)).count 0 = 0 := by omega
    exact List.count_eq_zero.mp h0
  refine ⟨?_, ?_, ?_⟩
  · by_cases h0 : z = 0
    · subst h0
      simp only [lombScargleKernelArgs, hz, if_pos rfl]
      simpa using hdrop
    · simp only [lombScargleKernelArgs, hz, if_neg h0, List.mem_append,
        List.mem_map, List.mem_reverse]
      rintro (hmem | ⟨a, ha, habs⟩)
      · exact hdrop hmem
      · exact htake (abs_eq_zero.mp habs ▸ ha)
  · intro h0
    subst h0
    simp [lombScarglePsd, hz]
  · intro h0
    have hne : z ≠ 0 := Nat.pos_iff_ne_zero.mp h0
    simp only [lombScarglePsd, hz, if_neg hne, split_by_zero, Option.getD_some]
    simp [List.map_reverse, List.reverse_reverse]

/-- Witness for claim C2 at the concrete grid -1, 0, 2 with the kernel that
adds one: the kernel is never invoked at 0 and the assembled spectrum is
2, 2, 3 with bin 1 the minimum of the negative-side powers. -/
theorem lomb_scargle_zero_handling_witness :
    (0 : ℚ) ∉ lombScargleKernelArgs [-1, 0, 2] ∧
    lombScarglePsd (fun x => x + 1) [-1, 0, 2] = [2, 2, 3] := by
  have h := lomb_scargle_zero_handling (fun x => x + 1) [-1, 0, 2] 1
    (by norm_num [zeroIdx]) (by norm_num [List.count_cons, List.count_nil])
  refine ⟨h.1, ?_⟩
  rw [h.2.2 (by norm_num)]
  norm_num [npMin]

theorem nfftGo_steps_le {S : Type} (step : S → S) (res : S → ℚ) (tol : ℚ) :
    ∀ (fuel : ℕ) (s : S) (k : ℕ),
      (nfftGo step res tol fuel s k).2 ≤ k + fuel := by
  intro fuel
  induction fuel with
  | zero => intro s k; simp [nfftGo]
  | succ f ih =>
    intro s k
    simp only [nfftGo]
    split
    · simp
    · split
      · simp
      · exact le_trans (ih (step s) (k + 1)) (by omega)

theorem nfftGo_steps_pos {S : Type} (step : S → S) (res : S → ℚ) (tol : ℚ) :
    ∀ (f : ℕ) (s : S) (k : ℕ),
      k + 1 ≤ (nfftGo step res tol (f + 1) s k).2 := by
  intro f
  induction f with
  | zero =>
    intro s k
    simp only [nfftGo]
    split
    · simp
    · simp
  | succ f ih =>
    intro s k
    simp only [nfftGo]
    split
    · simp
    · split
      · simp
      · exact le_trans (by omega) (ih (step s) (k + 1))

theorem nfftGo_noconv {S : Type} (step : S → S) (res : S → ℚ) (tol : ℚ)
    (hnc : ∀ s, ¬ res s < tol) :
    ∀ (fuel : ℕ) (s : S) (k : ℕ),
      nfftGo step res tol fuel s k = (step^[fuel] s, k + fuel) := by
  intro fuel
  induction fuel with
  | zero => intro s k; simp [nfftGo]
  | succ f ih =>
    intro s k
    simp only [nfftGo, if_neg (hnc (step s))]
    rcases Nat.eq_zero_or_pos f with rfl | hf
    · simp
    · rw [if_neg (Nat.pos_iff_ne_zero.mp hf), ih (step s) (k + 1)]
      rw [← Function.iterate_succ_apply]
      refine congrArg _ ?_
      omega

theorem nfftGo_early {S : Type} (step : S → S) (res : S → ℚ) (tol : ℚ)
    (s : S) (k f : ℕ) (h : res (step s) < tol) :
    nfftGo step res tol (f + 1) s k = (step s, k + 1) := by
  simp only [nfftGo, if_pos h]

/-- Claim C5, amended: the refinement loop of ts_nfft always terminates and
returns the latest solver state; it performs at least one and at most 501
refinement steps, because the cap check count == 500 runs only after a step
has already executed at count values 0 through 500; it stops after the very
first step whose residual is below the tolerance; and when no residual ever
falls below the tolerance it performs exactly 501 steps and returns the
501st iterate rather than failing. -/
theorem ts_nfft_loop_spec {S : Type} (step : S → S) (res : S → ℚ)
    (tol : ℚ) (s0 : S) :
    1 ≤ (ts_nfft_loop step res tol s0).2 ∧
    (ts_nfft_loop step res tol s0).2 ≤ 501 ∧
    (res (step s0) < tol → (ts_nfft_loop step res tol s0).2 = 1) ∧
    ((∀ s, ¬ res s < tol) →
      ts_nfft_loop step res tol s0 = (step^[501] s0, 501)) := by
  refine ⟨?_, ?_, ?_, ?_⟩
  · exact nfftGo_steps_pos step res tol 500 s0 0
  · exact nfftGo_steps_le step res tol 501 s0 0
  · intro h
    rw [ts_nfft_loop, nfftGo_early step res tol s0 0 500 h]
  · intro h
    exact nfftGo_noconv step res tol h 501 s0 0

/-- Witness for claim C5 at a solver on the unit state whose residual is
immediately below the tolerance: the loop stops after exactly one step. -/
theorem ts_nfft_loop_spec_witness :
    (ts_nfft_loop (fun (u : Unit) => u) (fun _ => (0 : ℚ)) 1 ()).2 = 1 :=
  (ts_nfft_loop_spec (fun (u : Unit) => u) (fun _ => (0 : ℚ)) 1 ()).2.2.1
    (by norm_num)

/-- Counterexample for claim C5 as stated: with a solver whose residual
never drops below the tolerance the loop performs 501 refinement steps, not
at most 500, because the cap check count == 500 runs only after the step of
that iteration has executed. -/
theorem ts_nfft_loop_cap_counterexample :
    (ts_nfft_loop (fun (u : Unit) => u) (fun _ => (1 : ℚ)) 0 ()).2 = 501 ∧
    ¬ (ts_nfft_loop (fun (u : Unit) => u) (fun _ => (1 : ℚ)) 0 ()).2 ≤
        500 := by
  have h := nfftGo_noconv (fun (u : Unit) => u) (fun _ => (1 : ℚ)) 0
    (fun s => by norm_num) 501 () 0
  rw [ts_nfft_loop] at *
  rw [h]
  norm_num

/-- Claim C6, amended: for a TimeSeries operand the duration-tolerance
invalid-argument error is raised exactly when the relative duration
deviation exceeds tol; when the deviation is at most tol, the boundary
included, the tolerance check passes but the call still fails with the
missing-regressor invalid-argument error raised by the implicit
to_frequencyseries conversion.  For a FrequencySeries operand the
equal-length precondition is enforced, as is the PSD-length precondition
when a PSD is supplied, and the external match function is reached exactly
when both hold. -/
theorem fs_match_spec (selfLen : ℕ) (selfDur dur tol : ℚ) (len : ℕ)
    (psdLen? : Option ℕ) :
    (fs_match selfLen selfDur (MatchOperand.ts dur false) psdLen? tol =
        Except.error MatchErr.durationTol ↔ |dur / selfDur - 1| > tol) ∧
    (|dur / selfDur - 1| ≤ tol →
      fs_match selfLen selfDur (MatchOperand.ts dur false) psdLen? tol =
        Except.error MatchErr.missingRegressor) ∧
    (len ≠ selfLen →
      fs_match selfLen selfDur (MatchOperand.fs len) psdLen? tol =
        Except.error MatchErr.lenMismatch) ∧
    (len = selfLen → ∀ p, psdLen? = some p → p ≠ selfLen →
      fs_match selfLen selfDur (MatchOperand.fs len) psdLen? tol =
        Except.error MatchErr.psdLenMismatch) ∧
    (len = selfLen → (psdLen? = none ∨ psdLen? = some selfLen) →
      fs_match selfLen selfDur (MatchOperand.fs len) psdLen? tol =
        Except.ok ()) := by
  refine ⟨?_, ?_, ?_, ?_, ?_⟩
  · constructor
    · intro h
      by_contra hgt
      simp [fs_match, to_frequencyseries_default, hgt] at h
    · intro h
      simp [fs_match, h]
  · intro h
    simp [fs_match, to_frequencyseries_default, not_lt.mpr h]
  · intro h
    simp [fs_match, h]
  · rintro rfl p rfl hp
    simp [fs_match, hp]
  · rintro rfl (rfl | rfl)
    · simp [fs_match]
    · simp [fs_match]

/-- Witness for claim C6 at a concrete over-tolerance input: self duration
1, operand duration 2, tolerance one tenth. -/
theorem fs_match_spec_witness :
    fs_match 1 1 (MatchOperand.ts 2 false) none (1 / 10) =
      Except.error MatchErr.durationTol :=
  (fs_match_spec 1 1 2 (1 / 10) 1 none).1.mpr (by norm_num)

/-- Counterexample for claim C6 as stated: at exactly the tolerance
boundary, operand duration eleven tenths against self duration 1 with
tolerance one tenth, the claim says match does not raise, yet the call
returns the missing-regressor invalid-argument error raised by the implicit
conversion of the TimeSeries operand. -/
theorem fs_match_boundary_counterexample :
    |(11 : ℚ) / 10 / 1 - 1| = 1 / 10 ∧
    fs_match 1 1 (MatchOperand.ts (11 / 10) false) none (1 / 10) =
      Except.error MatchErr.missingRegressor := by
  have h1 : |(11 : ℚ) / 10 / 1 - 1| = 1 / 10 := by norm_num
  refine ⟨h1, ?_⟩
  simp [fs_match, to_frequencyseries_default, h1]
  norm_num [abs_of_nonneg]

/-- Claim C10: whenever the duration of a real-valued TimeSeries operand is
within the relative tolerance of the series duration, match still fails
with the missing-regressor invalid-argument error before any similarity
score is computed, because the implicit conversion calls
to_frequencyseries with no keyword arguments and the default regression
method rejects a missing regressor unconditionally. -/
theorem fs_match_ts_missing_regressor (selfLen : ℕ) (selfDur dur tol : ℚ)
    (psdLen? : Option ℕ) (h : |dur / selfDur - 1| ≤ tol) :
    fs_match selfLen selfDur (MatchOperand.ts dur false) psdLen? tol =
      Except.error MatchErr.missingRegressor := by
  simp [fs_match, to_frequencyseries_default, not_lt.mpr h]

/-- Witness for claim C10 at a concrete in-tolerance input: equal durations
and the default tolerance one tenth. -/
theorem fs_match_ts_missing_regressor_witness :
    fs_match 1 1 (MatchOperand.ts 1 false) none (1 / 10) =
      Except.error MatchErr.missingRegressor :=
  fs_match_ts_missing_regressor 1 1 1 (1 / 10) none (by norm_num)

theorem welch_div_step (a d : ℕ) (hd : 0 < d) (ha : 1 ≤ a) :
    (a + d - 1) / d = (a - d + d - 1) / d + 1 := by
  have e1 : a + d - 1 = a - 1 + d := by omega
  rw [e1, Nat.add_div_right _ hd]
  rcases le_or_lt (d + 1) a with hcase | hcase
  · have e2 : a - d + d - 1 = a - 1 := by omega
    rw [e2]
  · rw [Nat.div_eq_of_lt (show a - 1 < d by omega),
      Nat.div_eq_of_lt (show a - d + d - 1 < d by omega)]

theorem welchGo_spec (contrib : ℕ → ℚ) (L d : ℕ) (hd : 0 < d) :
    ∀ (m n : ℕ), L - d - n ≤ m →
      welchGo contrib L d d n =
        (∑ i in Finset.range ((L - d - n + d - 1) / d), contrib (n + i * d),
          (L - d - n + d - 1) / d) := by
  intro m
  induction m with
  | zero =>
    intro n hn
    have hstop : ¬ (0 < d ∧ n < L - d) := by omega
    rw [welchGo, dif_neg hstop]
    have hz : (L - d - n + d - 1) / d = 0 := Nat.div_eq_of_lt (by omega)
    rw [hz]
    simp
  | succ m ih =>
    intro n hn
    by_cases hlt : n < L - d
    · rw [welchGo, dif_pos ⟨hd, hlt⟩, ih (n + d) (by omega)]
      have hk : (L - d - n + d - 1) / d =
          (L - d - (n + d) + d - 1) / d + 1 := by
        have e : L - d - (n + d) = L - d - n - d := by omega
        rw [e]
        exact welch_div_step (L - d - n) d hd (by omega)
      rw [hk]
      refine congrArg₂ Prod.mk ?_ rfl
      rw [Finset.sum_range_succ']
      have he : ∀ i : ℕ, contrib (n + (i + 1) * d) = contrib (n + d + i * d) :=
        fun i => congrArg contrib (by ring)
      rw [Finset.sum_congr rfl (fun i _ => he i)]
      rw [add_comm (contrib n)]
      simp
    · have hstop : ¬ (0 < d ∧ n < L - d) := by omega
      rw [welchGo, dif_neg hstop]
      have hz : (L - d - n + d - 1) / d = 0 := Nat.div_eq_of_lt (by omega)
      rw [hz]
      simp

theorem nat_ceil_div (a d : ℕ) (hd : 0 < d) :
    ⌈(a : ℚ) / (d : ℚ)⌉ = ((a + d - 1) / d : ℕ) := by
  have hdq : (0 : ℚ) < (d : ℚ) := by exact_mod_cast hd
  have h1 := Nat.div_add_mod (a + d - 1) d
  have h2 : (a + d - 1) % d < d := Nat.mod_lt _ hd
  have hub : a ≤ d * ((a + d - 1) / d) := by omega
  have hlb : d * ((a + d - 1) / d) < a + d := by omega
  have hubq : (a : ℚ) ≤ (d : ℚ) * (((a + d - 1) / d : ℕ) : ℚ) := by
    exact_mod_cast hub
  have hlbq : (d : ℚ) * (((a + d - 1) / d : ℕ) : ℚ) < (a : ℚ) + (d : ℚ) := by
    exact_mod_cast hlb
  have hz : (((((a + d - 1) / d : ℕ) : ℤ)) : ℚ) =
      (((a + d - 1) / d : ℕ) : ℚ) := Int.cast_natCast _
  rw [Int.ceil_eq_iff]
  constructor
  · rw [hz, lt_div_iff₀ hdq]
    nlinarith
  · rw [hz, div_le_iff₀ hdq]
    nlinarith

/-- Claim C3: for segment width d with 0 < d < L and overlap fraction 1,
lomb_welch processes exactly ceil of the quotient of L - d by d, plus the
forced tail segment, and its result is the accumulated sum of the
taper-power-normalized per-segment periodograms, the loop visiting segment
starts 0, d, 2d and so on, plus the tail contribution, divided by that
segment count. -/
theorem lomb_welch_spec (contrib : ℕ → ℚ) (tailContrib : ℚ) (L d : ℕ)
    (hd : 0 < d) (hL : d < L) :
    (lomb_welch contrib tailContrib L d 1).2 = (L - d + d - 1) / d + 1 ∧
    ((lomb_welch contrib tailContrib L d 1).2 : ℤ) =
      ⌈((L : ℚ) - (d : ℚ)) / (d : ℚ)⌉ + 1 ∧
    (lomb_welch contrib tailContrib L d 1).1 =
      ((∑ i in Finset.range ((L - d + d - 1) / d), contrib (i * d)) +
          tailContrib) / (((L - d + d - 1) / d + 1 : ℕ) : ℚ) := by
  have hstep : welchStep d 1 = d := by
    simp [welchStep]
  have hgo := welchGo_spec contrib L d hd (L - d) 0 (by omega)
  have hcast : ((L : ℚ) - (d : ℚ)) = ((L - d : ℕ) : ℚ) := by
    push_cast [Nat.cast_sub hL.le]
    ring
  have hceil : ⌈((L : ℚ) - (d : ℚ)) / (d : ℚ)⌉ = ((L - d + d - 1) / d : ℕ) := by
    rw [hcast]
    exact nat_ceil_div (L - d) d hd
  have hcount : (lomb_welch contrib tailContrib L d 1).2 =
      (L - d + d - 1) / d + 1 := by
    rw [lomb_welch, hstep, hgo]
    simp
  refine ⟨hcount, ?_, ?_⟩
  · rw [hcount, hceil]
    push_cast
    ring
  · rw [lomb_welch, hstep, hgo]
    simp only [Nat.sub_zero, zero_add, Prod.fst, Prod.snd]
    push_cast
    ring

/-- Witness for claim C3 at L = 5, d = 2: the loop processes segments
starting at 0 and 2, the tail segment is forced, and the result is the
three-way average. -/
theorem lomb_welch_spec_witness :
    (lomb_welch (fun n => (n : ℚ)) 7 5 2 1).2 = 3 ∧
    (lomb_welch (fun n => (n : ℚ)) 7 5 2 1).1 = (0 + 2 + 7) / 3 := by
  have h := lomb_welch_spec (fun n => (n : ℚ)) 7 5 2 (by norm_num)
    (by norm_num)
  constructor
  · rw [h.1]
  · rw [h.2.2]
    rw [show (5 - 2 + 2 - 1) / 2 = 2 from by norm_num]
    rw [Finset.sum_range_succ, Finset.sum_range_succ, Finset.sum_range_zero]
    norm_num

theorem npArgmin_spec :
    ∀ (l : List ℚ) (j : ℕ) (hj : j < l.length),
      (∀ x ∈ l, l.get ⟨j, hj⟩ ≤ x) →
      (∀ i (hi : i < l.length), i < j → l.get ⟨i, hi⟩ ≠ l.get ⟨j, hj⟩) →
      npArgmin l = j := by
  intro l
  induction l with
  | nil => intro j hj; simp at hj
  | cons x rest ih =>
    intro j hj hmin hne
    cases j with
    | zero =>
      cases rest with
      | nil => rfl
      | cons y ys =>
        have hmem : npMin (y :: ys) ∈ x :: y :: ys :=
          List.mem_cons_of_mem x (npMin_mem (by simp))
        have hx : x ≤ npMin (y :: ys) := hmin (npMin (y :: ys)) hmem
        rw [npArgmin, if_pos hx]
    | succ k =>
      cases rest with
      | nil => simp at hj
      | cons y ys =>
        have hk : k < (y :: ys).length := by
          simp at hj ⊢; omega
        have hget : (x :: y :: ys).get ⟨k + 1, hj⟩ = (y :: ys).get ⟨k, hk⟩ :=
          List.get_cons_succ
        have hmmem : (y :: ys).get ⟨k, hk⟩ ∈ y :: ys := List.get_mem _ _ _
        have hlow : npMin (y :: ys) ≤ (y :: ys).get ⟨k, hk⟩ :=
          npMin_le_of_mem hmmem
        have hxm : (x :: y :: ys).get ⟨k + 1, hj⟩ ≤ x :=
          hmin x (List.mem_cons_self _ _)
        have hxne : x ≠ (x :: y :: ys).get ⟨k + 1, hj⟩ :=
          hne 0 (by simp) (by omega)
        have hnle : ¬ x ≤ npMin (y :: ys) := by
          intro hle
          rw [hget] at hxm hxne
          exact hxne (le_antisymm (le_trans hle hlow) hxm)
        rw [npArgmin, if_neg hnle]
        refine congrArg (· + 1) (ih k hk ?_ ?_)
        · intro a ha
          have := hmin a (List.mem_cons_of_mem x ha)
          rw [hget] at this
          exact this
        · intro i hi hik
          have hi1 : i + 1 < (x :: y :: ys).length := by simp at hi ⊢; omega
          have := hne (i + 1) hi1 (by omega)
          rw [hget] at this
          have hgi : (x :: y :: ys).get ⟨i + 1, hi1⟩ = (y :: ys).get ⟨i, hi⟩ :=
            List.get_cons_succ
          rw [hgi] at this
          exact this

theorem npArgmin_abs (times : List ℚ) (hnd : times.Nodup) (j : ℕ)
    (hj : j < times.length) :
    npArgmin (times.map (fun t => |t - times.get ⟨j, hj⟩|)) = j := by
  have hjm : j < (times.map (fun t => |t - times.get ⟨j, hj⟩|)).length := by
    simpa using hj
  have hgj : (times.map (fun t => |t - times.get ⟨j, hj⟩|)).get ⟨j, hjm⟩ =
      0 := by
    simp [List.get_eq_getElem, List.getElem_map]
  apply npArgmin_spec (times.map (fun t => |t - times.get ⟨j, hj⟩|)) j hjm
  · intro a ha
    rw [hgj]
    obtain ⟨t, _, rfl⟩ := List.mem_map.mp ha
    exact abs_nonneg _
  · intro i hi hij
    rw [hgj]
    have hit : i < times.length := by simpa using hi
    have hgi : (times.map (fun t => |t - times.get ⟨j, hj⟩|)).get ⟨i, hi⟩ =
        |times.get ⟨i, hit⟩ - times.get ⟨j, hj⟩| := by
      simp [List.get_eq_getElem, List.getElem_map]
    rw [hgi]
    intro habs
    have heq : times.get ⟨i, hit⟩ = times.get ⟨j, hj⟩ :=
      sub_eq_zero.mp (abs_eq_zero.mp habs)
    have hfin := (List.Nodup.get_inj_iff hnd).mp heq
    have : i = j := congrArg Fin.val hfin
    omega

/-- Claim C7, amended: for strictly distinct time stamps, segment width
0 < d < L, the forced final segment of lomb_welch covers exactly the d
consecutive samples at indices L - d - 1 through L - 2; it is anchored one
sample before the tail, excludes the final sample, and is processed even
when it overlaps previously counted segments. -/
theorem welchTailSlice_spec (times data : List ℚ) (d : ℕ)
    (hnd : times.Nodup) (hd : 0 < d) (hdL : d < times.length) :
    welchTailSlice times data d =
      (data.drop (times.length - d - 1)).take d ∧
    (data.length = times.length →
      (welchTailSlice times data d).length = d) := by
  have h1 : times.length - d - 1 < times.length := by omega
  have h2 : times.length - 1 < times.length := by omega
  have e1 : times.getD (times.length - d - 1) 0 =
      times.get ⟨times.length - d - 1, h1⟩ := List.getD_eq_get times 0 h1
  have e2 : times.getD (times.length - 1) 0 =
      times.get ⟨times.length - 1, h2⟩ := List.getD_eq_get times 0 h2
  have a1 := npArgmin_abs times hnd (times.length - d - 1) h1
  have a2 := npArgmin_abs times hnd (times.length - 1) h2
  have hs : welchTailSlice times data d =
      (data.drop (times.length - d - 1)).take d := by
    rw [welchTailSlice, get_time_slice, e1, e2, a1, a2]
    congr 1
    omega
  refine ⟨hs, fun hdata => ?_⟩
  rw [hs, List.length_take, List.length_drop, hdata]
  omega

/-- Witness for claim C7 at four ascending times and payload
10, 20, 30, 40 with width 2: the forced segment is the two samples at
indices 1 and 2. -/
theorem welchTailSlice_spec_witness :
    welchTailSlice [0, 1, 2, 3] [10, 20, 30, 40] 2 =
      (List.drop 1 [10, 20, 30, 40]).take 2 ∧
    (welchTailSlice [0, 1, 2, 3] [10, 20, 30, 40] 2).length = 2 := by
  have h := welchTailSlice_spec [0, 1, 2, 3] [10, 20, 30, 40] 2
    (by norm_num [List.nodup_cons]) (by norm_num) (by norm_num)
  refine ⟨?_, h.2 (by norm_num)⟩
  simpa using h.1

/-- Counterexample for claim C7 as stated: with times 0, 1, 2, 3, payload
10, 20, 30, 40 and width 2, the forced final segment is 20, 30, the samples
at indices 1 and 2, and not the last two samples 30, 40: the argmin start
index L - d - 1 and the exclusive end index L - 1 drop the final sample. -/
theorem welchTailSlice_counterexample :
    welchTailSlice [0, 1, 2, 3] [10, 20, 30, 40] 2 = [20, 30] ∧
    welchTailSlice [0, 1, 2, 3] [10, 20, 30, 40] 2 ≠ [30, 40] := by
  have h : welchTailSlice [0, 1, 2, 3] [10, 20, 30, 40] 2 = [20, 30] := by
    norm_num [welchTailSlice, get_time_slice, npArgmin, npMin, List.getD,
      abs_of_nonneg, abs_of_nonpos, min_def]
  refine ⟨h, ?_⟩
  rw [h]
  intro hc
  norm_num at hc

end MFilter
